import Mathlib

/-!
Verification of `qutebrowser/commands/managers.py`: the command parsing and
dispatch engine (`CommandManager`) and the search state machine
(`SearchManager`).  Python strings are modelled as Lean `String`s (lists of
characters), Python exceptions as explicit error values, Qt signal emission as
an explicit list of emitted events, and the ambient collaborators
(configuration store, command registry, quoting-aware splitter) as an injected
environment record.
-/

/-- Python whitespace characters (the ASCII ones recognised by `str.strip` and
`str.split` with no separator). -/
def isPyWS (c : Char) : Bool :=
  c = ' ' || c = '\t' || c = '\n' || c = '\r' || c = '\x0b' || c = '\x0c'

/-- Drop trailing Python whitespace. -/
def dropTrailWS (cs : List Char) : List Char :=
  (cs.reverse.dropWhile isPyWS).reverse

/-- `str.strip()` on the character list: drop leading and trailing whitespace. -/
def pyStripList (cs : List Char) : List Char :=
  dropTrailWS (cs.dropWhile isPyWS)

/-- `text.strip()`. -/
def pyStrip (s : String) : String :=
  String.mk (pyStripList s.data)

/-- `text.endswith(' ')`: the last character is a space. -/
def pyEndsWithSpace (s : String) : Bool :=
  s.data.getLast? == some ' '

/-- Fuelled core of Python `str.split(sep=None, maxsplit=m)`: skip a run of
whitespace; if nothing remains stop; if the split budget is exhausted
(`m = 0`) the whole remainder (including any trailing whitespace) is the last
piece; otherwise take a maximal non-whitespace word and continue with budget
`m - 1`.  A negative budget is never `0`, which matches Python's unlimited
`maxsplit=-1`.  The fuel only bounds the recursion; `fuel ≥ cs.length`
always suffices since every step consumes at least one character. -/
def wsSplitF : Nat → Int → List Char → List (List Char)
  | 0, _, _ => []
  | fuel + 1, m, cs =>
    match cs.dropWhile isPyWS with
    | [] => []
    | c :: cs' =>
      if m = 0 then [c :: cs']
      else
        (c :: cs'.takeWhile (fun x => !isPyWS x)) ::
          wsSplitF fuel (m - 1) (cs'.dropWhile (fun x => !isPyWS x))

/-- Python `str.split(sep=None, maxsplit=m)` on a character list. -/
def wsSplit (m : Int) (cs : List Char) : List (List Char) :=
  wsSplitF cs.length m cs

/-- `text.split(maxsplit=1)`. -/
def splitMax1Str (s : String) : List String :=
  (wsSplit 1 s.data).map String.mk

/-- `text.split(maxsplit=m)` for a general (possibly negative) budget. -/
def pySplitMS (s : String) (m : Int) : List String :=
  (wsSplit m s.data).map String.mk

/-- Join character-list tokens with single spaces. -/
def joinSp : List (List Char) → List Char
  | [] => []
  | [a] => a
  | a :: b :: rest => a ++ ' ' :: joinSp (b :: rest)

/-- Re-join string tokens with single spaces (the replay operation of the
idempotence property). -/
def rejoinSp (ts : List String) : String :=
  String.mk (joinSp (ts.map String.data))

/-- `pat` is a prefix of `l`. -/
def isPrefixB : List Char → List Char → Bool
  | [], _ => true
  | _ :: _, [] => false
  | p :: ps, c :: cs => p = c && isPrefixB ps cs

/-- `pat in l` (Python substring containment). -/
def isInfixB (pat : List Char) : List Char → Bool
  | [] => isPrefixB pat []
  | c :: cs => isPrefixB pat (c :: cs) || isInfixB pat cs

/-- `';;' in text`. -/
def hasChain (text : String) : Bool :=
  isInfixB [';', ';'] text.data

/-- `text.split(';;')`: split on each non-overlapping occurrence of `;;`,
scanning left to right. -/
def splitOnSS : List Char → List (List Char)
  | [] => [[]]
  | ';' :: ';' :: rest => [] :: splitOnSS rest
  | c :: rest =>
    match splitOnSS rest with
    | g :: gs => (c :: g) :: gs
    | [] => [[c]]

/-- No leading whitespace: the head character, if any, is not whitespace. -/
def NoLeadWS (cs : List Char) : Prop :=
  ∀ c ∈ cs.head?, isPyWS c = false

/-- No trailing whitespace: the last character, if any, is not whitespace. -/
def NoTrailWS (cs : List Char) : Prop :=
  ∀ c ∈ cs.getLast?, isPyWS c = false

/-- Error taxonomy of the command pipeline.  `noSuchCommand` and
`argumentCount` are raised by `parse` and the arity check, `commandError`
models a `CommandError`/`CommandMetaError` raised by a command handler, and
`attributeError` models the `AttributeError` Python would raise when `_check`
or `_run` runs with no previously parsed command. -/
inductive CmdErr where
  | noSuchCommand (msg : String)
  | argumentCount (msg : String)
  | commandError (msg : String)
  | attributeError
deriving DecidableEq, Repr

/-- A registered command's metadata (the external `cmdutils.Command`
collaborator): name, splitting policy, arity `nargs = (min, max)`, and the
handler, modelled as a function returning `none` on success or the raised
error. -/
structure Command where
  name : String
  split : Bool
  nargsMin : Nat
  nargsMax : Option Nat
  handler : List String → Option Int → Option CmdErr

/-- Modelled from the spec: `Command.check` (external, in the command
registry collaborator) validates the argument count against the command's
declared arity and fails with an `ArgumentCountError` when it is outside
`[min, max]` (§4.3). -/
def Command.check (cmd : Command) (args : List String) : Option CmdErr :=
  if args.length < cmd.nargsMin then
    some (.argumentCount (cmd.name ++ ": missing arguments"))
  else
    match cmd.nargsMax with
    | some mx =>
      if mx < args.length then
        some (.argumentCount (cmd.name ++ ": too many arguments"))
      else none
    | none => none

/-- The injected external collaborators: the alias section of the
configuration store (`config.get('aliases', name)`, `none` covering
`NoOptionError`/`NoSectionError`), the command registry
(`cmdutils.cmd_dict`), and the quoting-aware splitter
(`safe_shlex_split`). -/
structure Env where
  aliases : String → Option String
  cmd_dict : String → Option Command
  shlexSplit : String → List String

/-- `CommandManager`'s mutable attributes `_cmd` and `_args`. -/
structure CMState where
  cmd : Option Command
  args : List String

/-- The state of a freshly constructed `CommandManager()`. -/
def cmInit : CMState := ⟨none, []⟩

/-- The argument tokenization of `CommandManager.parse`: no remainder means
no arguments; otherwise shell-style quoted splitting for a `split=True`
command, and a whitespace split capped at `nargs[0] - 1` separators
otherwise. -/
def parseArgs (env : Env) (cmd : Command) (rest : List String) : List String :=
  match rest with
  | [] => []
  | r :: _ =>
    if cmd.split then env.shlexSplit r
    else pySplitMS r ((cmd.nargsMin : Int) - 1)

/-- The trailing-space rule applied to `retargs = args[:]`: append one empty
string when the original text ends in a space and the command free-splits or
is still below its minimum arity. -/
def retArgs (text : String) (cmd : Command) (args : List String) :
    List String :=
  if pyEndsWithSpace text && (cmd.split || decide (args.length < cmd.nargsMin))
  then args ++ [""]
  else args

/-- The tail of `CommandManager.parse` once the alias branch is passed:
look up `cmdstr` in the registry, tokenize the remainder according to the
command's splitting policy, store `(cmd, args)`, and apply the
trailing-space rule to the returned token list only. -/
def parseFinish (env : Env) (st : CMState) (text cmdstr : String)
    (rest : List String) : CMState × Except String (List String) :=
  match env.cmd_dict cmdstr with
  | none => (st, .error (cmdstr ++ ": no such command"))
  | some cmd =>
    (⟨some cmd, parseArgs env cmd rest⟩,
      .ok (cmdstr :: retArgs text cmd (parseArgs env cmd rest)))

/-- `CommandManager.parse(text, aliases=False)`. -/
def parseNoAlias (env : Env) (st : CMState) (text : String) :
    CMState × Except String (List String) :=
  match splitMax1Str (pyStrip text) with
  | [] => (st, .error "No command given")
  | cmdstr :: rest => parseFinish env st text cmdstr rest

/-- The rewritten command line of the alias branch: `alias + ' ' + parts[1]`
(or just `alias` when there is no remainder), with a trailing space
re-appended when the original text ended in one. -/
def aliasNewCmd (al : String) (rest : List String) (text : String) : String :=
  let new_cmd :=
    match rest with
    | r :: _ => al ++ " " ++ r
    | [] => al
  if pyEndsWithSpace text then new_cmd ++ " " else new_cmd

/-- `CommandManager.parse(text, aliases)`: strip and split off the leading
token; when alias handling is on and the token is an alias, substitute the
replacement (re-appending a trailing space when the original text ended in
one) and re-parse once with alias handling off; otherwise resolve the
command and tokenize. -/
def parse (env : Env) (st : CMState) (text : String) (aliases : Bool) :
    CMState × Except String (List String) :=
  match splitMax1Str (pyStrip text) with
  | [] => (st, .error "No command given")
  | cmdstr :: rest =>
    match (if aliases then env.aliases cmdstr else none) with
    | some al => parseNoAlias env st (aliasNewCmd al rest text)
    | none => parseFinish env st text cmdstr rest

/-- One handler invocation (`self._cmd.run(self._args[, count])`). -/
structure RunEvent where
  cmdName : String
  args : List String
  count : Option Int
deriving DecidableEq, Repr

/-- Outcome of the strict dispatcher: final state, the handler invocations
performed, and the propagated error, if any. -/
structure RunResult where
  state : CMState
  trace : List RunEvent
  err : Option CmdErr

/-- `CommandManager.run` on a chain-free line: `parse`, `_check`, `_run`. -/
def runNoChain (env : Env) (st : CMState) (text : String) (count : Option Int) :
    RunResult :=
  match parse env st text true with
  | (st', .error e) => ⟨st', [], some (.noSuchCommand e)⟩
  | (st', .ok _) =>
    match st'.cmd with
    | none => ⟨st', [], some .attributeError⟩
    | some cmd =>
      match cmd.check st'.args with
      | some e => ⟨st', [], some e⟩
      | none => ⟨st', [⟨cmd.name, st'.args, count⟩], cmd.handler st'.args count⟩

/-- The `for sub in text.split(';;'): self.run(sub, count)` loop: the
segments produced by splitting on `;;` contain no `;;` themselves, so each
recursive `run` call takes the chain-free path; an exception raised by one
segment aborts the loop. -/
def runSubs (env : Env) (st : CMState) (subs : List String)
    (count : Option Int) : RunResult :=
  match subs with
  | [] => ⟨st, [], none⟩
  | sub :: rest =>
    match runNoChain env st sub count with
    | ⟨st', evs, some e⟩ => ⟨st', evs, some e⟩
    | ⟨st', evs, none⟩ =>
      let r := runSubs env st' rest count
      ⟨r.state, evs ++ r.trace, r.err⟩

/-- `CommandManager.run(text, count)`. -/
def run (env : Env) (st : CMState) (text : String) (count : Option Int) :
    RunResult :=
  if hasChain text then
    runSubs env st ((splitOnSS text.data).map String.mk) count
  else runNoChain env st text count

/-- Modelled from the spec: which errors the lenient entry points' except
clause `(CommandMetaError, CommandError)` catches.  The class hierarchy lives
in the external `commands.exceptions` module; per the spec's taxonomy (§7)
`NoSuchCommand` and `ArgumentCountError` are the command-meta category and
`CommandError` the command-runtime category, all routed to the message sink
by the lenient paths, while an `AttributeError` is neither and propagates. -/
def isCaught : CmdErr → Bool
  | .noSuchCommand _ => true
  | .argumentCount _ => true
  | .commandError _ => true
  | .attributeError => false

/-- A message routed to the message sink (`message.error(e, queue=...)`). -/
structure MsgEvent where
  err : CmdErr
  queued : Bool
deriving DecidableEq, Repr

/-- Outcome of a lenient entry point: state, handler invocations, messages
shown, and any uncaught error that still propagated. -/
structure SafeResult where
  state : CMState
  trace : List RunEvent
  msgs : List MsgEvent
  err : Option CmdErr

/-- `CommandManager.run_safely`. -/
def run_safely (env : Env) (st : CMState) (text : String)
    (count : Option Int) : SafeResult :=
  match run env st text count with
  | ⟨st', evs, none⟩ => ⟨st', evs, [], none⟩
  | ⟨st', evs, some e⟩ =>
    if isCaught e then ⟨st', evs, [⟨e, false⟩], none⟩
    else ⟨st', evs, [], some e⟩

/-- `CommandManager.run_safely_init`: like `run_safely` but queues the
message. -/
def run_safely_init (env : Env) (st : CMState) (text : String)
    (count : Option Int) : SafeResult :=
  match run env st text count with
  | ⟨st', evs, none⟩ => ⟨st', evs, [], none⟩
  | ⟨st', evs, some e⟩ =>
    if isCaught e then ⟨st', evs, [⟨e, true⟩], none⟩
    else ⟨st', evs, [], some e⟩

/-- `split_cmdline(text)`: try a full alias-aware parse with a fresh
manager; on `NoSuchCommandError` fall back to a naive split on `' '`
(appending one empty token when the text ends in a space); finally, when the
result is a single non-empty token, return the original stripped text split
once instead. -/
def split_cmdline (env : Env) (text : String) : List String :=
  let original_cmd := splitMax1Str (pyStrip text)
  let parts :=
    match parse env cmInit text true with
    | (_, .ok ps) => ps
    | (_, .error _) =>
      let ps := (text.data.splitOn ' ').map String.mk
      if pyEndsWithSpace text then ps ++ [""] else ps
  match parts with
  | [p] => if p ≠ "" then original_cmd else parts
  | _ => parts

/-- `QWebPage.FindBackward`. -/
def FindBackward : Nat := 1

/-- `QWebPage.FindCaseSensitively`. -/
def FindCaseSensitively : Nat := 2

/-- `QWebPage.FindWrapsAroundDocument`. -/
def FindWrapsAroundDocument : Nat := 4

/-- The two search-affecting configuration options, read at call time:
`config.get('general', 'ignore-case')` and
`config.get('general', 'wrap-search')`. -/
structure SearchConfig where
  ignoreCase : Bool
  wrapSearch : Bool

/-- `SearchManager`'s mutable attributes `_text` and `_flags`. -/
structure SearchState where
  text : Option String
  flags : Nat
deriving DecidableEq, Repr

/-- The state of a freshly constructed `SearchManager`. -/
def searchInit : SearchState := ⟨none, 0⟩

/-- A `do_search` signal emission: search string and flags. -/
abbrev SearchEvent := String × Nat

/-- The flag recomputation of `SearchManager._search`: start from `0`, or in
`FindCaseSensitively` when `ignore-case` is set, or in
`FindWrapsAroundDocument` when `wrap-search` is set, and or in
`FindBackward` when the search direction is reverse. -/
def newSearchFlags (cfg : SearchConfig) (rev : Bool) : Nat :=
  let f : Nat := 0
  let f := if cfg.ignoreCase then f ||| FindCaseSensitively else f
  let f := if cfg.wrapSearch then f ||| FindWrapsAroundDocument else f
  if rev then f ||| FindBackward else f

/-- The guard `self._text is not None and self._text != text`. -/
def prevDifferent (st : SearchState) (text : String) : Bool :=
  match st.text with
  | some t => t != text
  | none => false

/-- `SearchManager._search(text, rev)`: emit a clear request when a distinct
previous search exists, store the new text and recomputed flags, and emit the
search request. -/
def searchCore (cfg : SearchConfig) (st : SearchState) (text : String)
    (rev : Bool) : SearchState × List SearchEvent :=
  let clear : List SearchEvent := if prevDifferent st text then [("", 0)] else []
  let flags := newSearchFlags cfg rev
  (⟨some text, flags⟩, clear ++ [(text, flags)])

/-- `SearchManager.search(text)`. -/
def search (cfg : SearchConfig) (st : SearchState) (text : String) :
    SearchState × List SearchEvent :=
  searchCore cfg st text false

/-- `SearchManager.search_rev(text)`. -/
def search_rev (cfg : SearchConfig) (st : SearchState) (text : String) :
    SearchState × List SearchEvent :=
  searchCore cfg st text true

/-- `SearchManager.search_next(count)`: re-emit the stored text and flags
`count` times, or nothing when no search has happened.  The state is
returned unchanged — the method assigns neither `_text` nor `_flags`. -/
def search_next (st : SearchState) (count : Nat) :
    SearchState × List SearchEvent :=
  match st.text with
  | none => (st, [])
  | some t => (st, List.replicate count (t, st.flags))

/-- `SearchManager.search_prev(count)`: emit the stored text with the
direction flag toggled on a local copy of the flags, `count` times.  With
`FindBackward = 1`, Python's `flags &= ~FindBackward` clears the lowest bit,
i.e. subtracts `FindBackward` from the (odd) flag value.  The stored state
is returned unchanged. -/
def search_prev (st : SearchState) (count : Nat) :
    SearchState × List SearchEvent :=
  match st.text with
  | none => (st, [])
  | some t =>
    let flags :=
      if (st.flags &&& FindBackward) != 0 then st.flags - FindBackward
      else st.flags ||| FindBackward
    (st, List.replicate count (t, flags))

/-- Modelled from the spec: `safe_shlex_split` (the quoting-aware split
utility of §4.1/§6, whose source lives in the external `utils.misc` module):
single or double quotes group characters, including whitespace, into one
token; a backslash escapes the following character (outside single quotes);
an unterminated quote or trailing backslash is tolerated rather than an
error, the quoted remainder becoming part of the final token.  The first
argument is the open quote character, the second the current token
accumulated in reverse (`none` while between tokens). -/
def shlexAux : Option Char → Option (List Char) → List Char → List String
  | _, none, [] => []
  | _, some acc, [] => [String.mk acc.reverse]
  | some q, acc, c :: rest =>
    if c = q then shlexAux none (some (acc.getD [])) rest
    else if q = '"' && c = '\\' then
      match rest with
      | c2 :: rest2 => shlexAux (some q) (some (c2 :: acc.getD [])) rest2
      | [] => shlexAux (some q) (some (c :: acc.getD [])) []
    else shlexAux (some q) (some (c :: acc.getD [])) rest
  | none, cur, c :: rest =>
    if isPyWS c then
      match cur with
      | some acc => String.mk acc.reverse :: shlexAux none none rest
      | none => shlexAux none none rest
    else if c = '\'' || c = '"' then shlexAux (some c) (some (cur.getD [])) rest
    else if c = '\\' then
      match rest with
      | c2 :: rest2 => shlexAux none (some (c2 :: cur.getD [])) rest2
      | [] => shlexAux none (some (c :: cur.getD [])) []
    else shlexAux none (some (c :: cur.getD [])) rest

/-- Modelled from the spec: `safe_shlex_split(s)`. -/
def shlexModel (s : String) : List String :=
  shlexAux none none s.data

/-- A command handler that succeeds silently. -/
def okHandler : List String → Option Int → Option CmdErr := fun _ _ => none

/-- Demo registry entry: `open`, shell-splitting, exactly one argument. -/
def openCmd : Command := ⟨"open", true, 1, some 1, okHandler⟩

/-- Demo registry entry: `tabopen`, fixed split, exactly two arguments. -/
def tabCmd : Command := ⟨"tabopen", false, 2, some 2, okHandler⟩

/-- Demo registry entry: `faila`, whose handler raises a `CommandError`. -/
def failCmd : Command :=
  ⟨"faila", false, 0, none, fun _ _ => some (.commandError "boom")⟩

/-- Demo registry entry: `okb`, a zero-argument command that succeeds. -/
def okbCmd : Command := ⟨"okb", false, 0, none, okHandler⟩

/-- Demo alias table: `o → open`, plus the chain `a1 → a2 → a3` whose
intermediate name `a2` is not a registered command. -/
def demoAliases : String → Option String := fun s =>
  if s = "o" then some "open"
  else if s = "a1" then some "a2"
  else if s = "a2" then some "a3"
  else none

/-- Demo command registry. -/
def demoCmds : String → Option Command := fun s =>
  if s = "open" then some openCmd
  else if s = "tabopen" then some tabCmd
  else if s = "faila" then some failCmd
  else if s = "okb" then some okbCmd
  else none

/-- Demo environment wiring the demo registry, demo aliases and the modelled
quoting-aware splitter together. -/
def demoEnv : Env := ⟨demoAliases, demoCmds, shlexModel⟩

theorem strData_append (s t : String) : (s ++ t).data = s.data ++ t.data := by
  cases s; cases t; rfl

theorem dropTrailWS_concat_space (l : List Char) :
    dropTrailWS (l ++ [' ']) = dropTrailWS l := by
  simp [dropTrailWS, List.dropWhile_cons, isPyWS]

theorem pyStripList_concat_space (cs : List Char) :
    pyStripList (cs ++ [' ']) = pyStripList cs := by
  unfold pyStripList
  rw [List.dropWhile_append]
  split
  · next h =>
    rw [List.isEmpty_iff] at h
    simp [h, List.dropWhile_cons, isPyWS, dropTrailWS]
  · exact dropTrailWS_concat_space _

theorem pyStrip_append_space (s : String) : pyStrip (s ++ " ") = pyStrip s := by
  unfold pyStrip
  rw [strData_append]
  exact congrArg String.mk (pyStripList_concat_space s.data)

theorem pyEndsWithSpace_append (s : String) :
    pyEndsWithSpace (s ++ " ") = true := by
  unfold pyEndsWithSpace
  rw [strData_append]
  simp

/-- `parse` with `aliases=False` is exactly `parseNoAlias`. -/
theorem parse_false_eq (env : Env) (st : CMState) (t : String) :
    parse env st t false = parseNoAlias env st t := by
  unfold parse parseNoAlias
  rcases hh : splitMax1Str (pyStrip t) with _ | ⟨c, r⟩ <;> simp

/-- Shape of a successful `parseFinish`: the stored arguments are the bare
tokenization, and the returned tokens add at most the trailing marker. -/
theorem parseFinish_ok_shape (env : Env) (st : CMState) (text cmdstr : String)
    (rest : List String) (st2 : CMState) (toks : List String)
    (h : parseFinish env st text cmdstr rest = (st2, .ok toks)) :
    ∃ cmd, st2 = ⟨some cmd, parseArgs env cmd rest⟩ ∧
      (toks = cmdstr :: parseArgs env cmd rest ∨
        toks = cmdstr :: (parseArgs env cmd rest ++ [""])) := by
  unfold parseFinish at h
  split at h
  · simp at h
  · simp only [Prod.mk.injEq, Except.ok.injEq] at h
    obtain ⟨rfl, rfl⟩ := h
    refine ⟨_, rfl, ?_⟩
    unfold retArgs
    split
    · exact Or.inr rfl
    · exact Or.inl rfl

theorem parseNoAlias_ok_shape (env : Env) (st : CMState) (text : String)
    (st2 : CMState) (toks : List String)
    (h : parseNoAlias env st text = (st2, .ok toks)) :
    ∃ cmd cmdstr args, st2 = ⟨some cmd, args⟩ ∧
      (toks = cmdstr :: args ∨ toks = cmdstr :: (args ++ [""])) := by
  unfold parseNoAlias at h
  split at h
  · simp at h
  · obtain ⟨cmd, h1, h2⟩ := parseFinish_ok_shape _ _ _ _ _ _ _ h
    exact ⟨cmd, _, _, h1, h2⟩

/-- Shape of a successful parse: the state holds the resolved command and
the bare tokenized arguments, and the returned token list is the command
string followed by those arguments, possibly with one trailing empty-string
marker. -/
theorem parse_ok_shape (env : Env) (st : CMState) (text : String) (al : Bool)
    (st2 : CMState) (toks : List String)
    (h : parse env st text al = (st2, .ok toks)) :
    ∃ cmd cmdstr args, st2 = ⟨some cmd, args⟩ ∧
      (toks = cmdstr :: args ∨ toks = cmdstr :: (args ++ [""])) := by
  unfold parse at h
  split at h
  · simp at h
  · split at h
    · exact parseNoAlias_ok_shape _ _ _ _ _ h
    · obtain ⟨cmd, h1, h2⟩ := parseFinish_ok_shape _ _ _ _ _ _ _ h
      exact ⟨cmd, _, _, h1, h2⟩

theorem parseFinish_error_state (env : Env) (st : CMState) (text cmdstr : String)
    (rest : List String) (st2 : CMState) (e : String)
    (h : parseFinish env st text cmdstr rest = (st2, .error e)) : st2 = st := by
  unfold parseFinish at h
  split at h
  · simp only [Prod.mk.injEq] at h
    exact h.1.symm
  · simp at h

theorem parseNoAlias_error_state (env : Env) (st : CMState) (text : String)
    (st2 : CMState) (e : String)
    (h : parseNoAlias env st text = (st2, .error e)) : st2 = st := by
  unfold parseNoAlias at h
  split at h
  · simp only [Prod.mk.injEq] at h
    exact h.1.symm
  · exact parseFinish_error_state _ _ _ _ _ _ _ h

/-- C5: a failed parse leaves the previously stored `(_cmd, _args)` pair
untouched; the manager state is overwritten only by a fully successful
parse. -/
theorem parse_error_preserves_state (env : Env) (st : CMState) (text : String)
    (al : Bool) (st2 : CMState) (e : String)
    (h : parse env st text al = (st2, .error e)) : st2 = st := by
  unfold parse at h
  split at h
  · simp only [Prod.mk.injEq] at h
    exact h.1.symm
  · split at h
    · exact parseNoAlias_error_state _ _ _ _ _ h
    · exact parseFinish_error_state _ _ _ _ _ _ _ h

theorem parse_error_preserves_state_witness :
    (parse demoEnv ⟨some openCmd, ["x"]⟩ "bogus" true).1 =
      ⟨some openCmd, ["x"]⟩ :=
  parse_error_preserves_state demoEnv ⟨some openCmd, ["x"]⟩ "bogus" true _
    "bogus: no such command" rfl

/-- C2: when the leading token is an alias, `parse` substitutes the
replacement exactly once and re-parses with alias expansion disabled; if the
replacement's own leading token is an alias name that is not a registered
command, the parse fails with `NoSuchCommand` instead of expanding a second
hop. -/
theorem parse_alias_one_hop (env : Env) (st : CMState) (text cmdstr : String)
    (rest : List String) (al : String)
    (hsplit : splitMax1Str (pyStrip text) = cmdstr :: rest)
    (halias : env.aliases cmdstr = some al) :
    parse env st text true = parse env st (aliasNewCmd al rest text) false ∧
    ∀ c2 r2 al2, splitMax1Str (pyStrip (aliasNewCmd al rest text)) = c2 :: r2 →
      env.aliases c2 = some al2 → env.cmd_dict c2 = none →
      parse env st text true = (st, .error (c2 ++ ": no such command")) := by
  have h1 : parse env st text true = parseNoAlias env st (aliasNewCmd al rest text) := by
    simp [parse, hsplit, halias]
  refine ⟨h1.trans (parse_false_eq env st _).symm, ?_⟩
  intro c2 r2 al2 h2 _ h4
  rw [h1]
  simp [parseNoAlias, h2, parseFinish, h4]

theorem parse_alias_one_hop_witness :
    parse demoEnv cmInit "a1 x" true = (cmInit, .error "a2: no such command") :=
  (parse_alias_one_hop demoEnv cmInit "a1 x" "a1" ["x"] "a2" rfl rfl).2
    "a2" ["x"] "a3" rfl rfl rfl

/-- C9: the trailing empty-string marker of the trailing-space rule is
appended only to the returned token list, never to the stored `_args`, so
the argument-count validation and the handler invocation performed by `run`
never see it. -/
theorem parse_marker_only_returned (env : Env) (st : CMState) (text : String)
    (st2 : CMState) (toks : List String) (count : Option Int)
    (h : parse env st text true = (st2, .ok toks)) :
    (∃ cmdstr, toks = cmdstr :: st2.args ∨ toks = cmdstr :: (st2.args ++ [""])) ∧
    ∀ ev ∈ (runNoChain env st text count).trace, ev.args = st2.args := by
  obtain ⟨cmd, cmdstr, args, hst, htoks⟩ := parse_ok_shape _ _ _ _ _ _ h
  subst hst
  refine ⟨⟨cmdstr, htoks⟩, ?_⟩
  intro ev hev
  unfold runNoChain at hev
  rw [h] at hev
  rcases hc : cmd.check args with _ | e <;> simp [hc] at hev
  rw [hev]

theorem parse_marker_only_returned_witness :
    (∃ cmdstr, (["tabopen", "a", ""] : List String) =
        cmdstr :: (⟨some tabCmd, ["a"]⟩ : CMState).args ∨
      (["tabopen", "a", ""] : List String) =
        cmdstr :: ((⟨some tabCmd, ["a"]⟩ : CMState).args ++ [""])) ∧
    ∀ ev ∈ (runNoChain demoEnv cmInit "tabopen a " none).trace,
      ev.args = (⟨some tabCmd, ["a"]⟩ : CMState).args :=
  parse_marker_only_returned demoEnv cmInit "tabopen a " ⟨some tabCmd, ["a"]⟩
    ["tabopen", "a", ""] none rfl

/-- C10: when the alias-aware parse of the whole line succeeds with exactly
one non-empty token, `split_cmdline` discards the parsed result and returns
the original stripped text split once on whitespace instead — in particular
a zero-argument alias invocation yields the typed alias name, not the
resolved command name. -/
theorem split_cmdline_single_token (env : Env) (text : String) (st2 : CMState)
    (tok : String) (h : parse env cmInit text true = (st2, .ok [tok]))
    (hne : tok ≠ "") :
    split_cmdline env text = splitMax1Str (pyStrip text) := by
  unfold split_cmdline
  rw [h]
  simp [hne]

theorem split_cmdline_single_token_witness :
    split_cmdline demoEnv "o" = splitMax1Str (pyStrip "o") :=
  split_cmdline_single_token demoEnv "o" ⟨some openCmd, []⟩ "open" rfl
    (by decide)

/-- C6: `search` and `search_rev` emit a clear request (empty text, zero
flags) exactly when a previous distinct search text is stored, followed by
the search request with flags recomputed from the configuration plus the
requested direction bit, and always store `(text, flags)`. -/
theorem search_emits (cfg : SearchConfig) (st : SearchState) (text : String) :
    (prevDifferent st text = true →
      (searchCore cfg st text false).2 =
        [("", 0), (text, newSearchFlags cfg false)] ∧
      (searchCore cfg st text true).2 =
        [("", 0), (text, newSearchFlags cfg true)]) ∧
    (prevDifferent st text = false →
      (searchCore cfg st text false).2 = [(text, newSearchFlags cfg false)] ∧
      (searchCore cfg st text true).2 = [(text, newSearchFlags cfg true)]) ∧
    (∀ rev, (searchCore cfg st text rev).1 =
      ⟨some text, newSearchFlags cfg rev⟩) ∧
    search cfg st text = searchCore cfg st text false ∧
    search_rev cfg st text = searchCore cfg st text true ∧
    newSearchFlags cfg true = newSearchFlags cfg false ||| FindBackward := by
  refine ⟨fun h => ?_, fun h => ?_, fun rev => rfl, rfl, rfl, ?_⟩
  · constructor <;> simp [searchCore, h]
  · constructor <;> simp [searchCore, h]
  · obtain ⟨i, w⟩ := cfg
    cases i <;> cases w <;> rfl

theorem search_emits_witness :
    (searchCore ⟨true, false⟩ ⟨some "old", 0⟩ "new" false).2 =
      [("", 0), ("new", newSearchFlags ⟨true, false⟩ false)] ∧
    (searchCore ⟨true, false⟩ ⟨none, 0⟩ "new" false).2 =
      [("new", newSearchFlags ⟨true, false⟩ false)] :=
  ⟨((search_emits ⟨true, false⟩ ⟨some "old", 0⟩ "new").1 rfl).1,
   ((search_emits ⟨true, false⟩ ⟨none, 0⟩ "new").2.1 rfl).1⟩

/-- C7: `search_next(n)` re-emits the stored `(text, flags)` exactly `n`
times when a search is active, and emits nothing when idle; the stored state
is unchanged either way. -/
theorem search_next_repeats (st : SearchState) (n : Nat) :
    (st.text = none → search_next st n = (st, [])) ∧
    (∀ t, st.text = some t →
      search_next st n = (st, List.replicate n (t, st.flags))) := by
  constructor
  · intro h
    simp [search_next, h]
  · intro t h
    simp [search_next, h]

theorem search_next_repeats_witness :
    search_next ⟨none, 0⟩ 3 = (⟨none, 0⟩, []) ∧
    search_next ⟨some "foo", 6⟩ 3 =
      (⟨some "foo", 6⟩, List.replicate 3 ("foo", 6)) :=
  ⟨(search_next_repeats ⟨none, 0⟩ 3).1 rfl,
   (search_next_repeats ⟨some "foo", 6⟩ 3).2 "foo" rfl⟩

/-- C8: after a forward `search(text)`, `search_prev(n)` emits `n` events
with the backward bit toggled on, without mutating the stored flags — a
subsequent `search_next` still emits the original forward flags — and when
no search has occurred `search_prev` emits nothing. -/
theorem search_prev_inverts (cfg : SearchConfig) (st0 : SearchState)
    (text : String) (n m : Nat) :
    search_prev (search cfg st0 text).1 n =
      ((search cfg st0 text).1,
        List.replicate n (text, (search cfg st0 text).1.flags ||| FindBackward)) ∧
    (search cfg st0 text).1.flags &&& FindBackward = 0 ∧
    search_next (search cfg st0 text).1 m =
      ((search cfg st0 text).1,
        List.replicate m (text, (search cfg st0 text).1.flags)) ∧
    (st0.text = none → search_prev st0 n = (st0, [])) := by
  have hb : newSearchFlags cfg false &&& FindBackward = 0 := by
    obtain ⟨i, w⟩ := cfg
    cases i <;> cases w <;> decide
  refine ⟨?_, hb, ?_, fun h => ?_⟩
  · simp [search, searchCore, search_prev, hb]
  · simp [search, searchCore, search_next]
  · simp [search_prev, h]

theorem search_prev_inverts_witness :
    search_prev (search ⟨true, true⟩ searchInit "foo").1 2 =
      ((search ⟨true, true⟩ searchInit "foo").1,
        List.replicate 2 ("foo",
          (search ⟨true, true⟩ searchInit "foo").1.flags ||| FindBackward)) ∧
    search_next (search ⟨true, true⟩ searchInit "foo").1 3 =
      ((search ⟨true, true⟩ searchInit "foo").1,
        List.replicate 3 ("foo", (search ⟨true, true⟩ searchInit "foo").1.flags)) ∧
    search_prev searchInit 2 = (searchInit, []) :=
  ⟨(search_prev_inverts ⟨true, true⟩ searchInit "foo" 2 3).1,
   (search_prev_inverts ⟨true, true⟩ searchInit "foo" 2 3).2.2.1,
   (search_prev_inverts ⟨true, true⟩ searchInit "foo" 2 3).2.2.2 rfl⟩

/-- C1 counterexample: on the chained line `"faila;;okb"`, whose first
segment's handler raises a `CommandError`, the lenient entry point runs only
the first segment — the trace contains no invocation of `okb` — while the
error is caught and routed to the message sink. -/
theorem run_safely_chain_cex :
    (run_safely demoEnv cmInit "faila;;okb" none).trace =
      [⟨"faila", [], none⟩] ∧
    (run_safely demoEnv cmInit "faila;;okb" none).msgs =
      [⟨.commandError "boom", false⟩] ∧
    (run_safely demoEnv cmInit "faila;;okb" none).err = none :=
  ⟨rfl, rfl, rfl⟩

/-- C1 (amended): a failure raised by one segment of a `;;` chain aborts the
loop, so the subsequent segments are not run in any entry point; the strict
`run` propagates the failure to its caller, while the lenient entry points
catch a command-meta or command error at the top level and route it to the
message sink (immediately or queued) instead of propagating it. -/
theorem run_chain_stops_at_failure :
    (∀ env st sub rest count st1 evs e,
      runNoChain env st sub count = ⟨st1, evs, some e⟩ →
      runSubs env st (sub :: rest) count = ⟨st1, evs, some e⟩) ∧
    (∀ env st text count st1 evs e,
      run env st text count = ⟨st1, evs, some e⟩ → isCaught e = true →
      run_safely env st text count = ⟨st1, evs, [⟨e, false⟩], none⟩ ∧
      run_safely_init env st text count = ⟨st1, evs, [⟨e, true⟩], none⟩) := by
  constructor
  · intro env st sub rest count st1 evs e h
    simp [runSubs, h]
  · intro env st text count st1 evs e h hc
    constructor
    · simp [run_safely, h, hc]
    · simp [run_safely_init, h, hc]

theorem run_chain_stops_at_failure_witness :
    runSubs demoEnv cmInit ["faila", "okb"] none =
      ⟨⟨some failCmd, []⟩, [⟨"faila", [], none⟩], some (.commandError "boom")⟩ ∧
    run_safely demoEnv cmInit "faila;;okb" none =
      ⟨⟨some failCmd, []⟩, [⟨"faila", [], none⟩],
        [⟨.commandError "boom", false⟩], none⟩ :=
  ⟨run_chain_stops_at_failure.1 demoEnv cmInit "faila" ["okb"] none
      ⟨some failCmd, []⟩ [⟨"faila", [], none⟩] (.commandError "boom") rfl,
   (run_chain_stops_at_failure.2 demoEnv cmInit "faila;;okb" none
      ⟨some failCmd, []⟩ [⟨"faila", [], none⟩] (.commandError "boom")
      rfl rfl).1⟩

/-- C3: for a line whose leading token resolves directly to a registered
command, appending a trailing space to the line adds exactly one trailing
empty-string argument to the parse result when the command free-splits or
the tokenized argument count is below its minimum arity, and changes nothing
otherwise; the stored state is identical in both cases. -/
theorem parse_trailing_space (env : Env) (st : CMState) (text cmdstr : String)
    (rest : List String) (cmd : Command)
    (hsplit : splitMax1Str (pyStrip text) = cmdstr :: rest)
    (halias : env.aliases cmdstr = none)
    (hcmd : env.cmd_dict cmdstr = some cmd)
    (hend : pyEndsWithSpace text = false) :
    parse env st text true =
      (⟨some cmd, parseArgs env cmd rest⟩,
        .ok (cmdstr :: parseArgs env cmd rest)) ∧
    parse env st (text ++ " ") true =
      (⟨some cmd, parseArgs env cmd rest⟩,
        .ok (cmdstr ::
          (if cmd.split || decide ((parseArgs env cmd rest).length < cmd.nargsMin)
           then parseArgs env cmd rest ++ [""]
           else parseArgs env cmd rest))) := by
  have hsplit2 : splitMax1Str (pyStrip (text ++ " ")) = cmdstr :: rest := by
    rw [pyStrip_append_space]
    exact hsplit
  constructor
  · simp [parse, hsplit, halias, parseFinish, retArgs, hcmd, hend]
  · simp [parse, hsplit2, halias, parseFinish, retArgs, hcmd,
      pyEndsWithSpace_append]

theorem parse_trailing_space_witness :
    parse demoEnv cmInit "open" true =
      (⟨some openCmd, []⟩, .ok ["open"]) ∧
    parse demoEnv cmInit ("open" ++ " ") true =
      (⟨some openCmd, []⟩, .ok ["open", ""]) := by
  have h := parse_trailing_space demoEnv cmInit "open" "open" [] openCmd
    rfl rfl rfl rfl
  simpa using h

/-- C4 counterexample: a successful parse replayed verbatim is not
idempotent.  With no aliases involved at all, parsing `open "a b"` yields
the tokens `["open", "a b"]`; re-joining them with single spaces loses the
quoting, and parsing the replayed line yields `["open", "a", "b"]`. -/
theorem parse_replay_cex :
    (parse demoEnv cmInit "open \"a b\"" true).2 = .ok ["open", "a b"] ∧
    rejoinSp ["open", "a b"] = "open a b" ∧
    (parse demoEnv cmInit (rejoinSp ["open", "a b"]) true).2 =
      .ok ["open", "a", "b"] ∧
    (["open", "a", "b"] : List String) ≠ ["open", "a b"] :=
  ⟨rfl, rfl, rfl, by decide⟩

theorem dropWhile_head_false {p : Char → Bool} :
    ∀ {l : List Char} {c : Char} {cs' : List Char},
      l.dropWhile p = c :: cs' → p c = false := by
  intro l
  induction l with
  | nil => intro c cs' h; simp at h
  | cons a t ih =>
    intro c cs' h
    rw [List.dropWhile_cons] at h
    split at h
    · exact ih h
    · next hpa =>
      cases h
      simpa using hpa

theorem noTrail_of_all (l : List Char) (h : ∀ x ∈ l, isPyWS x = false) :
    NoTrailWS l := by
  intro c hc
  obtain ⟨hne, rfl⟩ := List.mem_getLast?_eq_getLast hc
  exact h _ (List.getLast_mem hne)

theorem noTrail_of_suffix {l s : List Char} (hs : s <:+ l)
    (h : NoTrailWS l) : NoTrailWS s := by
  intro c hc
  obtain ⟨t, rfl⟩ := hs
  apply h
  have hsne : s ≠ [] := by
    intro he
    subst he
    simp at hc
  rw [List.getLast?_append_of_ne_nil t hsne]
  exact hc

theorem noTrail_dropWhile {l : List Char} (h : NoTrailWS l) (p : Char → Bool) :
    NoTrailWS (l.dropWhile p) :=
  noTrail_of_suffix (List.dropWhile_suffix p) h

theorem noTrail_tail {c : Char} {l : List Char} (h : NoTrailWS (c :: l)) :
    NoTrailWS l :=
  noTrail_of_suffix ⟨[c], rfl⟩ h

theorem noLead_pyStripList (cs : List Char) : NoLeadWS (pyStripList cs) := by
  intro c hc
  unfold pyStripList dropTrailWS at hc
  have h1 : (cs.dropWhile isPyWS).reverse.dropWhile isPyWS <:+
      (cs.dropWhile isPyWS).reverse := List.dropWhile_suffix isPyWS
  have h2 := List.reverse_prefix.mpr h1
  rw [List.reverse_reverse] at h2
  obtain ⟨t, ht⟩ := h2
  rcases hh : ((cs.dropWhile isPyWS).reverse.dropWhile isPyWS).reverse
    with _ | ⟨d, ds⟩
  · rw [hh] at hc; simp at hc
  · rw [hh] at hc ht
    have hdc : d = c := by simpa using hc
    subst hdc
    rw [List.cons_append] at ht
    exact dropWhile_head_false ht.symm

theorem noTrail_pyStripList (cs : List Char) : NoTrailWS (pyStripList cs) := by
  intro c hc
  unfold pyStripList dropTrailWS at hc
  rw [List.getLast?_reverse] at hc
  rcases hh : (cs.dropWhile isPyWS).reverse.dropWhile isPyWS with _ | ⟨d, ds⟩
  · rw [hh] at hc; simp at hc
  · rw [hh] at hc
    simp at hc
    subst hc
    exact dropWhile_head_false hh

theorem dropWhile_eq_self_of_noLead {l : List Char} (h : NoLeadWS l) :
    l.dropWhile isPyWS = l := by
  cases l with
  | nil => rfl
  | cons c t =>
    rw [List.dropWhile_cons]
    have : isPyWS c = false := h c rfl
    simp [this]

theorem pyStripList_eq_self {l : List Char} (h1 : NoLeadWS l)
    (h2 : NoTrailWS l) : pyStripList l = l := by
  unfold pyStripList dropTrailWS
  rw [dropWhile_eq_self_of_noLead h1]
  cases hr : l.reverse with
  | nil =>
    have : l = [] := by simpa using congrArg List.reverse hr
    simp [this]
  | cons c t =>
    have hc : isPyWS c = false := by
      apply h2
      rw [← List.head?_reverse, hr]
      rfl
    rw [List.dropWhile_cons]
    simp only [hc, if_false, Bool.false_eq_true]
    rw [← hr, List.reverse_reverse]

theorem wsSplitF_nil (f : Nat) (m : Int) : wsSplitF f m [] = [] := by
  cases f <;> simp [wsSplitF]

theorem wsSplitF_fuel : ∀ (n : Nat) (cs : List Char), cs.length ≤ n →
    ∀ (f : Nat) (m : Int), cs.length ≤ f →
    wsSplitF f m cs = wsSplitF cs.length m cs := by
  intro n
  induction n with
  | zero =>
    intro cs hcs f m _
    have hnil : cs = [] := List.length_eq_zero.mp (Nat.le_zero.mp hcs)
    subst hnil
    simp [wsSplitF_nil]
  | succ n ih =>
    intro cs hcs f m hf
    rcases hL : cs.length with _ | k
    · have hnil : cs = [] := List.length_eq_zero.mp hL
      subst hnil
      simp [wsSplitF_nil]
    · rw [hL] at hf hcs
      rcases f with _ | f'
      · omega
      · show wsSplitF (f' + 1) m cs = wsSplitF (k + 1) m cs
        simp only [wsSplitF]
        rcases hd : cs.dropWhile isPyWS with _ | ⟨c, cs'⟩
        · rfl
        · by_cases hm : m = 0
          · simp [hm]
          · simp only [hm, if_false, List.cons.injEq, true_and]
            have l1 : (c :: cs').length ≤ cs.length := by
              rw [← hd]
              exact (List.dropWhile_suffix isPyWS).sublist.length_le
            have l2 : (cs'.dropWhile (fun x => !isPyWS x)).length ≤ cs'.length :=
              (List.dropWhile_suffix _).sublist.length_le
            rw [List.length_cons, hL] at l1
            have e1 := ih (cs'.dropWhile (fun x => !isPyWS x)) (by omega)
              f' (m - 1) (by omega)
            have e2 := ih (cs'.dropWhile (fun x => !isPyWS x)) (by omega)
              k (m - 1) (by omega)
            rw [e1, e2]

/-- Unfolding rule for `wsSplit` on all-whitespace input. -/
theorem wsSplit_of_dropWhile_nil {cs : List Char} (m : Int)
    (h : cs.dropWhile isPyWS = []) : wsSplit m cs = [] := by
  unfold wsSplit
  rcases hL : cs.length with _ | k
  · have hnil : cs = [] := List.length_eq_zero.mp hL
    subst hnil
    simp [wsSplitF_nil]
  · simp only [wsSplitF, h]

/-- Unfolding rule for `wsSplit` with exhausted budget: the whole remainder
after leading whitespace is the single piece. -/
theorem wsSplit_budget0 {cs cs' : List Char} {c : Char}
    (h : cs.dropWhile isPyWS = c :: cs') : wsSplit 0 cs = [c :: cs'] := by
  unfold wsSplit
  rcases hL : cs.length with _ | k
  · have hnil : cs = [] := List.length_eq_zero.mp hL
    subst hnil
    simp at h
  · simp only [wsSplitF, h]
    rfl

/-- Unfolding rule for `wsSplit` with budget left: take one word and
continue on the remainder with the budget decremented. -/
theorem wsSplit_word {cs cs' : List Char} {c : Char} {m : Int} (hm : m ≠ 0)
    (h : cs.dropWhile isPyWS = c :: cs') :
    wsSplit m cs = (c :: cs'.takeWhile (fun x => !isPyWS x)) ::
      wsSplit (m - 1) (cs'.dropWhile (fun x => !isPyWS x)) := by
  unfold wsSplit
  rcases hL : cs.length with _ | k
  · have hnil : cs = [] := List.length_eq_zero.mp hL
    subst hnil
    simp at h
  · simp only [wsSplitF, h]
    rw [if_neg hm]
    congr 1
    have l1 : (c :: cs').length ≤ cs.length := by
      rw [← h]
      exact (List.dropWhile_suffix isPyWS).sublist.length_le
    have l2 : (cs'.dropWhile (fun x => !isPyWS x)).length ≤ cs'.length :=
      (List.dropWhile_suffix _).sublist.length_le
    rw [List.length_cons, hL] at l1
    exact wsSplitF_fuel k (cs'.dropWhile (fun x => !isPyWS x)) (by omega)
      k (m - 1) (by omega)

/-- `wsSplit` ignores a leading whitespace character. -/
theorem wsSplit_cons_ws {d : Char} (hd : isPyWS d = true) (m : Int)
    (l : List Char) : wsSplit m (d :: l) = wsSplit m l := by
  have hdw : (d :: l).dropWhile isPyWS = l.dropWhile isPyWS := by
    rw [List.dropWhile_cons, if_pos hd]
  rcases hc : l.dropWhile isPyWS with _ | ⟨c, cs'⟩
  · rw [wsSplit_of_dropWhile_nil m (hdw.trans hc),
      wsSplit_of_dropWhile_nil m hc]
  · by_cases hm : m = 0
    · subst hm
      rw [wsSplit_budget0 (hdw.trans hc), wsSplit_budget0 hc]
    · rw [wsSplit_word hm (hdw.trans hc), wsSplit_word hm hc]

theorem wsSplit_rest_len {cs cs' : List Char} {c : Char}
    (hd : cs.dropWhile isPyWS = c :: cs') :
    (cs'.dropWhile (fun x => !isPyWS x)).length + 1 ≤ cs.length := by
  have l1 : (c :: cs').length ≤ cs.length := by
    rw [← hd]
    exact (List.dropWhile_suffix isPyWS).sublist.length_le
  have l2 : (cs'.dropWhile (fun x => !isPyWS x)).length ≤ cs'.length :=
    (List.dropWhile_suffix _).sublist.length_le
  rw [List.length_cons] at l1
  omega

theorem word_nonws {cs' : List Char} {c : Char} (hc : isPyWS c = false) :
    ∀ x ∈ c :: cs'.takeWhile (fun y => !isPyWS y), isPyWS x = false := by
  intro x hx
  rcases List.mem_cons.mp hx with h | h
  · subst h; exact hc
  · have := List.mem_takeWhile_imp h
    simpa using this

theorem joinSp_cons (a b : List Char) (rest : List (List Char)) :
    joinSp (a :: b :: rest) = a ++ ' ' :: joinSp (b :: rest) := rfl

theorem joinSp_cons_head (c : Char) (t : List Char) (as : List (List Char)) :
    ∃ u, joinSp ((c :: t) :: as) = c :: u := by
  cases as with
  | nil => exact ⟨t, rfl⟩
  | cons b bs => exact ⟨t ++ ' ' :: joinSp (b :: bs), rfl⟩

theorem joinSp_concat_nil :
    ∀ (xs : List (List Char)), xs ≠ [] →
      joinSp (xs ++ [[]]) = joinSp xs ++ [' '] := by
  intro xs
  induction xs with
  | nil => intro h; cases h rfl
  | cons a as ih =>
    intro _
    cases as with
    | nil => rfl
    | cons b bs =>
      have h1 : (a :: b :: bs) ++ [[]] = a :: ((b :: bs) ++ [[]]) := rfl
      have h2 : (b :: bs) ++ [([] : List Char)] = b :: (bs ++ [[]]) := rfl
      rw [h1, h2, joinSp_cons, ← h2, ih (by simp)]
      rw [joinSp_cons]
      simp

theorem takeWhile_append_stop {p : Char → Bool} :
    ∀ (xs : List Char) (y : Char) (ys : List Char),
      (∀ x ∈ xs, p x = true) → p y = false →
      (xs ++ y :: ys).takeWhile p = xs := by
  intro xs
  induction xs with
  | nil =>
    intro y ys _ hy
    rw [List.nil_append, List.takeWhile_cons_of_neg (by simp [hy])]
  | cons a t ih =>
    intro y ys hall hy
    rw [List.cons_append,
      List.takeWhile_cons_of_pos (by simp [hall a (by simp)]),
      ih y ys (fun x hx => hall x (by simp [hx])) hy]

theorem dropWhile_append_stop {p : Char → Bool} :
    ∀ (xs : List Char) (y : Char) (ys : List Char),
      (∀ x ∈ xs, p x = true) → p y = false →
      (xs ++ y :: ys).dropWhile p = y :: ys := by
  intro xs
  induction xs with
  | nil =>
    intro y ys _ hy
    rw [List.nil_append, List.dropWhile_cons, if_neg (by simp [hy])]
  | cons a t ih =>
    intro y ys hall hy
    rw [List.cons_append, List.dropWhile_cons,
      if_pos (by simp [hall a (by simp)]),
      ih y ys (fun x hx => hall x (by simp [hx])) hy]

/-- Every piece produced by `wsSplit` is nonempty and starts with a
non-whitespace character. -/
theorem wsSplit_elem_shape : ∀ (n : Nat) (cs : List Char), cs.length ≤ n →
    ∀ (m : Int) (a : List Char), a ∈ wsSplit m cs →
    ∃ c t, a = c :: t ∧ isPyWS c = false := by
  intro n
  induction n with
  | zero =>
    intro cs hcs m a ha
    have hnil : cs = [] := List.length_eq_zero.mp (Nat.le_zero.mp hcs)
    subst hnil
    rw [@wsSplit_of_dropWhile_nil [] m (by simp)] at ha
    simp at ha
  | succ n ih =>
    intro cs hcs m a ha
    rcases hd : cs.dropWhile isPyWS with _ | ⟨c, cs'⟩
    · rw [wsSplit_of_dropWhile_nil m hd] at ha
      simp at ha
    · have hc : isPyWS c = false := dropWhile_head_false hd
      by_cases hm : m = 0
      · subst hm
        rw [wsSplit_budget0 hd] at ha
        simp at ha
        exact ⟨c, cs', ha, hc⟩
      · rw [wsSplit_word hm hd] at ha
        rcases List.mem_cons.mp ha with h1 | h2
        · exact ⟨c, _, h1, hc⟩
        · exact ih _ (by have := wsSplit_rest_len hd; omega) _ _ h2

/-- When the input has no trailing whitespace, neither does the re-joined
split. -/
theorem wsSplit_join_noTrail : ∀ (n : Nat) (cs : List Char), cs.length ≤ n →
    NoTrailWS cs → ∀ (m : Int), NoTrailWS (joinSp (wsSplit m cs)) := by
  intro n
  induction n with
  | zero =>
    intro cs hcs _ m
    have hnil : cs = [] := List.length_eq_zero.mp (Nat.le_zero.mp hcs)
    subst hnil
    rw [@wsSplit_of_dropWhile_nil [] m (by simp)]
    intro x hx
    simp [joinSp] at hx
  | succ n ih =>
    intro cs hcs ht m
    rcases hd : cs.dropWhile isPyWS with _ | ⟨c, cs'⟩
    · rw [wsSplit_of_dropWhile_nil m hd]
      intro x hx
      simp [joinSp] at hx
    · by_cases hm : m = 0
      · subst hm
        rw [wsSplit_budget0 hd]
        show NoTrailWS (joinSp [c :: cs'])
        have he : joinSp [c :: cs'] = c :: cs' := rfl
        rw [he, ← hd]
        exact noTrail_dropWhile ht isPyWS
      · rw [wsSplit_word hm hd]
        rcases htail : wsSplit (m - 1) (cs'.dropWhile (fun x => !isPyWS x))
          with _ | ⟨a, as⟩
        · show NoTrailWS (joinSp [c :: cs'.takeWhile (fun x => !isPyWS x)])
          have he : joinSp [c :: cs'.takeWhile (fun x => !isPyWS x)]
              = c :: cs'.takeWhile (fun x => !isPyWS x) := rfl
          rw [he]
          exact noTrail_of_all _ (word_nonws (dropWhile_head_false hd))
        · rw [joinSp_cons]
          have hρtrail : NoTrailWS (cs'.dropWhile (fun x => !isPyWS x)) := by
            have s1 : cs'.dropWhile (fun x => !isPyWS x) <:+ cs' :=
              List.dropWhile_suffix _
            have s2 : (c :: cs') <:+ cs := hd ▸ List.dropWhile_suffix isPyWS
            have s3 : cs' <:+ (c :: cs') := ⟨[c], rfl⟩
            exact noTrail_of_suffix (s1.trans (s3.trans s2)) ht
          have hJ := ih (cs'.dropWhile (fun x => !isPyWS x))
            (by have := wsSplit_rest_len hd; omega) hρtrail (m - 1)
          rw [htail] at hJ
          obtain ⟨c2, t2, rfl, -⟩ :=
            wsSplit_elem_shape n (cs'.dropWhile (fun x => !isPyWS x))
              (by have := wsSplit_rest_len hd; omega)
              (m - 1) a (by rw [htail]; exact List.mem_cons_self _ _)
          obtain ⟨u, hu⟩ := joinSp_cons_head c2 t2 as
          intro x hx
          rw [List.getLast?_append_cons, hu, List.getLast?_cons_cons, ← hu]
            at hx
          exact hJ x hx

/-- Whitespace splitting round-trips through a single-space re-join: the
split of the re-joined pieces equals the original split, for the same
budget. -/
theorem wsSplit_join_roundtrip : ∀ (n : Nat) (cs : List Char),
    cs.length ≤ n → ∀ (m : Int),
    wsSplit m (joinSp (wsSplit m cs)) = wsSplit m cs := by
  intro n
  induction n with
  | zero =>
    intro cs hcs m
    have hnil : cs = [] := List.length_eq_zero.mp (Nat.le_zero.mp hcs)
    subst hnil
    rw [@wsSplit_of_dropWhile_nil [] m (by simp)]
    exact @wsSplit_of_dropWhile_nil [] m (by simp)
  | succ n ih =>
    intro cs hcs m
    rcases hd : cs.dropWhile isPyWS with _ | ⟨c, cs'⟩
    · rw [wsSplit_of_dropWhile_nil m hd]
      exact @wsSplit_of_dropWhile_nil [] m (by simp)
    · have hc : isPyWS c = false := dropWhile_head_false hd
      by_cases hm : m = 0
      · subst hm
        rw [wsSplit_budget0 hd]
        show wsSplit 0 (joinSp [c :: cs']) = [c :: cs']
        have he : joinSp [c :: cs'] = c :: cs' := rfl
        rw [he]
        exact wsSplit_budget0
          (by rw [List.dropWhile_cons, if_neg (by simp [hc])])
      · rw [wsSplit_word hm hd]
        have hwall : ∀ x ∈ cs'.takeWhile (fun y => !isPyWS y),
            (fun y => !isPyWS y) x = true :=
          fun x hx => by simpa using List.mem_takeWhile_imp hx
        rcases htail : wsSplit (m - 1) (cs'.dropWhile (fun x => !isPyWS x))
          with _ | ⟨a, as⟩
        · show wsSplit m (joinSp [c :: cs'.takeWhile (fun x => !isPyWS x)])
            = [c :: cs'.takeWhile (fun x => !isPyWS x)]
          have he : joinSp [c :: cs'.takeWhile (fun x => !isPyWS x)]
              = c :: cs'.takeWhile (fun x => !isPyWS x) := rfl
          rw [he]
          have hdw : (c :: cs'.takeWhile (fun x => !isPyWS x)).dropWhile isPyWS
              = c :: cs'.takeWhile (fun x => !isPyWS x) := by
            rw [List.dropWhile_cons, if_neg (by simp [hc])]
          rw [wsSplit_word hm hdw]
          rw [List.takeWhile_eq_self_iff.mpr (by simpa using hwall)]
          rw [List.dropWhile_eq_nil_iff.mpr (by simpa using hwall)]
          rw [@wsSplit_of_dropWhile_nil [] (m - 1) (by simp)]
        · obtain ⟨c2, t2, ha, hc2⟩ :=
            wsSplit_elem_shape n (cs'.dropWhile (fun x => !isPyWS x))
              (by have := wsSplit_rest_len hd; omega) (m - 1) a
              (by rw [htail]; exact List.mem_cons_self _ _)
          rw [joinSp_cons]
          have hstep1 : ((c :: cs'.takeWhile (fun x => !isPyWS x)) ++
              ' ' :: joinSp (a :: as)).dropWhile isPyWS
              = c :: (cs'.takeWhile (fun x => !isPyWS x) ++
                  ' ' :: joinSp (a :: as)) := by
            rw [List.cons_append, List.dropWhile_cons, if_neg (by simp [hc])]
          rw [wsSplit_word hm hstep1]
          rw [takeWhile_append_stop _ ' ' _ hwall (by simp [isPyWS])]
          rw [dropWhile_append_stop _ ' ' _ hwall (by simp [isPyWS])]
          rw [wsSplit_cons_ws (by simp [isPyWS]) (m - 1)]
          congr 1
          have hrt := ih (cs'.dropWhile (fun x => !isPyWS x))
            (by have := wsSplit_rest_len hd; omega) (m - 1)
          rw [htail] at hrt
          exact hrt

theorem map_data_map_mk : ∀ (l : List (List Char)),
    (l.map String.mk).map String.data = l
  | [] => rfl
  | a :: t => by rw [List.map_cons, List.map_cons, map_data_map_mk t]

theorem pyEndsWithSpace_mk_concat (l : List Char) :
    pyEndsWithSpace (String.mk (l ++ [' '])) = true := by
  simp [pyEndsWithSpace, List.getLast?_concat]

theorem pyEndsWithSpace_of_noTrail {l : List Char} (h : NoTrailWS l) :
    pyEndsWithSpace (String.mk l) = false := by
  unfold pyEndsWithSpace
  rcases hg : l.getLast? with _ | x
  · rfl
  · have hx := h x (by rw [Option.mem_def]; exact hg)
    simp only [beq_eq_false_iff_ne, ne_eq, Option.some.injEq]
    intro he
    subst he
    simp [isPyWS] at hx

theorem wsSplit_ne_nil {cs cs' : List Char} {c : Char} (m : Int)
    (hd : cs.dropWhile isPyWS = c :: cs') : wsSplit m cs ≠ [] := by
  by_cases hm : m = 0
  · subst hm
    rw [wsSplit_budget0 hd]
    simp
  · rw [wsSplit_word hm hd]
    simp

/-- `parse` on a line whose leading token directly resolves to a registered
command. -/
theorem parse_resolves (env : Env) (st : CMState) (text cmdstr : String)
    (rest : List String) (cmd : Command)
    (hsplit : splitMax1Str (pyStrip text) = cmdstr :: rest)
    (halias : env.aliases cmdstr = none)
    (hcmd : env.cmd_dict cmdstr = some cmd) :
    parse env st text true =
      (⟨some cmd, parseArgs env cmd rest⟩,
        .ok (cmdstr :: retArgs text cmd (parseArgs env cmd rest))) := by
  simp [parse, hsplit, halias, parseFinish, hcmd]

/-- Splitting a single whitespace-free word changes nothing: the stripped
text is the word itself, the one-split yields just the word, and the text
does not end in a space. -/
theorem splitMax1_word (c : Char) (w : List Char)
    (hall : ∀ x ∈ c :: w, isPyWS x = false) :
    pyStripList (c :: w) = c :: w ∧
    wsSplit 1 (c :: w) = [c :: w] ∧
    pyEndsWithSpace (String.mk (c :: w)) = false := by
  have hc : isPyWS c = false := hall c (by simp)
  have hwall : ∀ x ∈ w, isPyWS x = false := fun x hx => hall x (by simp [hx])
  have hNT : NoTrailWS (c :: w) := noTrail_of_all _ hall
  have hdw : (c :: w).dropWhile isPyWS = c :: w := by
    rw [List.dropWhile_cons, if_neg (by simp [hc])]
  refine ⟨?_, ?_, pyEndsWithSpace_of_noTrail hNT⟩
  · exact pyStripList_eq_self (fun x hx => by
      simp only [List.head?_cons, Option.mem_def, Option.some.injEq] at hx
      subst hx
      exact hc) hNT
  · rw [wsSplit_word (by norm_num) hdw]
    rw [List.takeWhile_eq_self_iff.mpr (by intro x hx; simp [hwall x hx])]
    rw [List.dropWhile_eq_nil_iff.mpr (by intro x hx; simp [hwall x hx])]
    rw [@wsSplit_of_dropWhile_nil [] _ (by simp)]

/-- Splitting a whitespace-free word followed by a single space and a
remainder with non-whitespace head and tail character: the text is already
stripped, the one-split separates the word from the remainder, and the text
does not end in a space. -/
theorem splitMax1_word_rest (c : Char) (w J : List Char)
    (hall : ∀ x ∈ c :: w, isPyWS x = false)
    (hJhead : ∃ d u, J = d :: u ∧ isPyWS d = false)
    (hJtrail : NoTrailWS J) :
    pyStripList ((c :: w) ++ ' ' :: J) = (c :: w) ++ ' ' :: J ∧
    wsSplit 1 ((c :: w) ++ ' ' :: J) = [c :: w, J] ∧
    pyEndsWithSpace (String.mk ((c :: w) ++ ' ' :: J)) = false := by
  obtain ⟨d, u, rfl, hd⟩ := hJhead
  have hc : isPyWS c = false := hall c (by simp)
  have hwall : ∀ x ∈ w, isPyWS x = false := fun x hx => hall x (by simp [hx])
  have hNT : NoTrailWS ((c :: w) ++ ' ' :: d :: u) := by
    intro x hx
    rw [List.getLast?_append_cons, List.getLast?_cons_cons] at hx
    exact hJtrail x hx
  have hdw : ((c :: w) ++ ' ' :: d :: u).dropWhile isPyWS
      = c :: (w ++ ' ' :: d :: u) := by
    rw [List.cons_append, List.dropWhile_cons, if_neg (by simp [hc])]
  refine ⟨?_, ?_, pyEndsWithSpace_of_noTrail hNT⟩
  · exact pyStripList_eq_self (fun x hx => by
      rw [List.cons_append] at hx
      simp only [List.head?_cons, Option.mem_def, Option.some.injEq] at hx
      subst hx
      exact hc) hNT
  · rw [wsSplit_word (by norm_num) hdw]
    rw [takeWhile_append_stop w ' ' _ (by intro x hx; simp [hwall x hx])
      (by simp [isPyWS])]
    rw [dropWhile_append_stop w ' ' _ (by intro x hx; simp [hwall x hx])
      (by simp [isPyWS])]
    have h10 : (1 : Int) - 1 = 0 := by norm_num
    rw [h10, wsSplit_cons_ws (by simp [isPyWS]) 0]
    rw [wsSplit_budget0 (show (d :: u).dropWhile isPyWS = d :: u by
      rw [List.dropWhile_cons, if_neg (by simp [hd])])]

theorem data_mk (l : List Char) : (String.mk l).data = l := rfl

theorem retArgs_pos {text : String} {cmd : Command} {args : List String}
    (h : (pyEndsWithSpace text &&
      (cmd.split || decide (args.length < cmd.nargsMin))) = true) :
    retArgs text cmd args = args ++ [""] := by
  rw [retArgs, if_pos h]

theorem retArgs_neg {text : String} {cmd : Command} {args : List String}
    (h : ¬ (pyEndsWithSpace text &&
      (cmd.split || decide (args.length < cmd.nargsMin))) = true) :
    retArgs text cmd args = args := by
  rw [retArgs, if_neg h]

/-- C4 (amended): for a line whose leading token is not an alias and
resolves to a command with `split=False` (fixed whitespace splitting), a
successful parse replayed verbatim — its returned token list re-joined with
single spaces — parses again to exactly the same state and token list.  (As
`parse_replay_cex` shows, the unrestricted claim fails for `split=True`
commands, where the re-join loses quoting; an alias as leading token
likewise breaks replay because the returned head token is the resolved
name.) -/
theorem parse_replay_fixed_split (env : Env) (st st2 : CMState)
    (text cmdstr : String) (rest : List String) (cmd : Command)
    (stOut : CMState) (toks : List String)
    (hsplit : splitMax1Str (pyStrip text) = cmdstr :: rest)
    (halias : env.aliases cmdstr = none)
    (hcmd : env.cmd_dict cmdstr = some cmd)
    (hfix : cmd.split = false)
    (hparse : parse env st text true = (stOut, .ok toks)) :
    parse env st2 (rejoinSp toks) true = (stOut, .ok toks) := by
  rw [parse_resolves env st text cmdstr rest cmd hsplit halias hcmd] at hparse
  simp only [Prod.mk.injEq, Except.ok.injEq] at hparse
  obtain ⟨rfl, rfl⟩ := hparse
  have hNL := noLead_pyStripList text.data
  have hNT := noTrail_pyStripList text.data
  have hsp : (wsSplit 1 (pyStripList text.data)).map String.mk
      = cmdstr :: rest := hsplit
  rcases hσc : pyStripList text.data with _ | ⟨c, σ'⟩
  · rw [hσc, @wsSplit_of_dropWhile_nil [] 1 (by simp)] at hsp
    simp at hsp
  · rw [hσc] at hsp hNL hNT
    have hc : isPyWS c = false := hNL c (by simp)
    have hdw : (c :: σ').dropWhile isPyWS = c :: σ' := by
      rw [List.dropWhile_cons, if_neg (by simp [hc])]
    rw [wsSplit_word (by norm_num) hdw] at hsp
    have h10 : (1 : Int) - 1 = 0 := by norm_num
    rw [h10, List.map_cons] at hsp
    injection hsp with hcl hrest
    subst hcl
    have hwordall : ∀ x ∈ c :: σ'.takeWhile (fun y => !isPyWS y),
        isPyWS x = false := word_nonws hc
    rcases hρc : (σ'.dropWhile (fun x => !isPyWS x)).dropWhile isPyWS
      with _ | ⟨d, δ⟩
    · -- no remainder: zero tokenized arguments
      rw [wsSplit_of_dropWhile_nil 0 hρc] at hrest
      simp only [List.map_nil] at hrest
      subst hrest
      simp only [parseArgs]
      by_cases hbm : (pyEndsWithSpace text && (cmd.split ||
          decide (([] : List String).length < cmd.nargsMin))) = true
      · rw [retArgs_pos hbm]
        simp only [List.nil_append]
        have hrj : rejoinSp [String.mk (c :: σ'.takeWhile (fun y => !isPyWS y)),
            ""] = String.mk ((c :: σ'.takeWhile (fun y => !isPyWS y)) ++ [' ']) :=
          rfl
        rw [hrj]
        obtain ⟨hstrip, hsplit1, -⟩ := splitMax1_word c _ hwordall
        have hsplit' : splitMax1Str (pyStrip (String.mk
            ((c :: σ'.takeWhile (fun y => !isPyWS y)) ++ [' ']))) =
            String.mk (c :: σ'.takeWhile (fun y => !isPyWS y)) :: [] := by
          show (wsSplit 1 (pyStripList
            ((c :: σ'.takeWhile (fun y => !isPyWS y)) ++ [' ']))).map String.mk
            = _
          rw [pyStripList_concat_space, hstrip, hsplit1]
          rfl
        rw [parse_resolves env st2 _ _ _ cmd hsplit' halias hcmd]
        simp only [parseArgs]
        rw [Bool.and_eq_true] at hbm
        rw [retArgs_pos (by
          rw [pyEndsWithSpace_mk_concat, Bool.true_and]
          exact hbm.2)]
        simp
      · rw [retArgs_neg hbm]
        have hrj : rejoinSp [String.mk (c :: σ'.takeWhile (fun y => !isPyWS y))]
            = String.mk (c :: σ'.takeWhile (fun y => !isPyWS y)) := rfl
        rw [hrj]
        obtain ⟨hstrip, hsplit1, hends⟩ := splitMax1_word c _ hwordall
        have hsplit' : splitMax1Str (pyStrip (String.mk
            (c :: σ'.takeWhile (fun y => !isPyWS y)))) =
            String.mk (c :: σ'.takeWhile (fun y => !isPyWS y)) :: [] := by
          show (wsSplit 1 (pyStripList
            (c :: σ'.takeWhile (fun y => !isPyWS y)))).map String.mk = _
          rw [hstrip, hsplit1]
          rfl
        rw [parse_resolves env st2 _ _ _ cmd hsplit' halias hcmd]
        simp only [parseArgs]
        rw [retArgs_neg (by rw [hends, Bool.false_and]; simp)]
    · -- one remainder piece `d :: δ`
      rw [wsSplit_budget0 hρc] at hrest
      simp only [List.map_cons, List.map_nil] at hrest
      subst hrest
      have hdn : isPyWS d = false := dropWhile_head_false hρc
      have hρsuf : (d :: δ) <:+ (c :: σ') := by
        have s1 : (σ'.dropWhile (fun x => !isPyWS x)).dropWhile isPyWS <:+
            σ'.dropWhile (fun x => !isPyWS x) := List.dropWhile_suffix isPyWS
        have s2 : σ'.dropWhile (fun x => !isPyWS x) <:+ σ' :=
          List.dropWhile_suffix _
        have s3 : σ' <:+ (c :: σ') := ⟨[c], rfl⟩
        rw [hρc] at s1
        exact s1.trans (s2.trans s3)
      have hρNT : NoTrailWS (d :: δ) := noTrail_of_suffix hρsuf hNT
      have hargs : parseArgs env cmd [String.mk (d :: δ)] =
          (wsSplit ((cmd.nargsMin : Int) - 1) (d :: δ)).map String.mk := by
        simp only [parseArgs, hfix, Bool.false_eq_true, if_false]
        rfl
      have hALne : wsSplit ((cmd.nargsMin : Int) - 1) (d :: δ) ≠ [] :=
        wsSplit_ne_nil _ (by rw [List.dropWhile_cons, if_neg (by simp [hdn])])
      have hJNT : NoTrailWS (joinSp
          (wsSplit ((cmd.nargsMin : Int) - 1) (d :: δ))) :=
        wsSplit_join_noTrail (d :: δ).length (d :: δ) le_rfl hρNT _
      have hRT := wsSplit_join_roundtrip (d :: δ).length (d :: δ) le_rfl
        ((cmd.nargsMin : Int) - 1)
      rcases hAL : wsSplit ((cmd.nargsMin : Int) - 1) (d :: δ)
        with _ | ⟨a0, as0⟩
      · exact absurd hAL hALne
      · obtain ⟨c2, t2, ha0, hc2⟩ := wsSplit_elem_shape (d :: δ).length
          (d :: δ) le_rfl _ a0 (by rw [hAL]; exact List.mem_cons_self _ _)
        rw [hAL] at hJNT hRT hargs
        rw [hargs]
        subst ha0
        obtain ⟨u, hu⟩ := joinSp_cons_head c2 t2 as0
        have hJhead : ∃ d2 u2, joinSp ((c2 :: t2) :: as0) = d2 :: u2 ∧
            isPyWS d2 = false := ⟨c2, u, hu, hc2⟩
        obtain ⟨hstrip, hsplit1, hends⟩ := splitMax1_word_rest c _
          (joinSp ((c2 :: t2) :: as0)) hwordall hJhead hJNT
        by_cases hbm : (pyEndsWithSpace text && (cmd.split ||
            decide ((((c2 :: t2) :: as0).map String.mk).length
              < cmd.nargsMin))) = true
        · rw [retArgs_pos hbm]
          have hrj : rejoinSp
              (String.mk (c :: σ'.takeWhile (fun y => !isPyWS y)) ::
                (((c2 :: t2) :: as0).map String.mk ++ [""])) =
              String.mk (((c :: σ'.takeWhile (fun y => !isPyWS y)) ++
                ' ' :: joinSp ((c2 :: t2) :: as0)) ++ [' ']) := by
            unfold rejoinSp
            congr 1
            rw [List.map_cons, data_mk, List.map_append, map_data_map_mk]
            have he : ([""] : List String).map String.data = [[]] := rfl
            rw [he]
            have hassoc : (c :: σ'.takeWhile (fun y => !isPyWS y)) ::
                (((c2 :: t2) :: as0) ++ [[]]) =
                ((c :: σ'.takeWhile (fun y => !isPyWS y)) ::
                  (c2 :: t2) :: as0) ++ [[]] := rfl
            rw [hassoc, joinSp_concat_nil _ (by simp), joinSp_cons]
          rw [hrj]
          have hsplit' : splitMax1Str (pyStrip (String.mk
              (((c :: σ'.takeWhile (fun y => !isPyWS y)) ++
                ' ' :: joinSp ((c2 :: t2) :: as0)) ++ [' ']))) =
              String.mk (c :: σ'.takeWhile (fun y => !isPyWS y)) ::
                [String.mk (joinSp ((c2 :: t2) :: as0))] := by
            show (wsSplit 1 (pyStripList _)).map String.mk = _
            rw [pyStripList_concat_space, hstrip, hsplit1]
            rfl
          rw [parse_resolves env st2 _ _ _ cmd hsplit' halias hcmd]
          have hargs' : parseArgs env cmd
              [String.mk (joinSp ((c2 :: t2) :: as0))] =
              ((c2 :: t2) :: as0).map String.mk := by
            simp only [parseArgs, hfix, Bool.false_eq_true, if_false]
            show (wsSplit ((cmd.nargsMin : Int) - 1)
              (joinSp ((c2 :: t2) :: as0))).map String.mk = _
            rw [hRT]
          rw [hargs']
          rw [Bool.and_eq_true] at hbm
          rw [retArgs_pos (by
            rw [pyEndsWithSpace_mk_concat, Bool.true_and]
            exact hbm.2)]
        · rw [retArgs_neg hbm]
          have hrj : rejoinSp
              (String.mk (c :: σ'.takeWhile (fun y => !isPyWS y)) ::
                ((c2 :: t2) :: as0).map String.mk) =
              String.mk ((c :: σ'.takeWhile (fun y => !isPyWS y)) ++
                ' ' :: joinSp ((c2 :: t2) :: as0)) := by
            unfold rejoinSp
            congr 1
            rw [List.map_cons, data_mk, map_data_map_mk, joinSp_cons]
          rw [hrj]
          have hsplit' : splitMax1Str (pyStrip (String.mk
              ((c :: σ'.takeWhile (fun y => !isPyWS y)) ++
                ' ' :: joinSp ((c2 :: t2) :: as0)))) =
              String.mk (c :: σ'.takeWhile (fun y => !isPyWS y)) ::
                [String.mk (joinSp ((c2 :: t2) :: as0))] := by
            show (wsSplit 1 (pyStripList _)).map String.mk = _
            rw [hstrip, hsplit1]
            rfl
          rw [parse_resolves env st2 _ _ _ cmd hsplit' halias hcmd]
          have hargs' : parseArgs env cmd
              [String.mk (joinSp ((c2 :: t2) :: as0))] =
              ((c2 :: t2) :: as0).map String.mk := by
            simp only [parseArgs, hfix, Bool.false_eq_true, if_false]
            show (wsSplit ((cmd.nargsMin : Int) - 1)
              (joinSp ((c2 :: t2) :: as0))).map String.mk = _
            rw [hRT]
          rw [hargs']
          rw [retArgs_neg (by rw [hends, Bool.false_and]; simp)]

theorem parse_replay_fixed_split_witness :
    parse demoEnv cmInit (rejoinSp ["tabopen", "a", ""]) true =
      (⟨some tabCmd, ["a"]⟩, .ok ["tabopen", "a", ""]) :=
  parse_replay_fixed_split demoEnv cmInit cmInit "tabopen a " "tabopen" ["a"]
    tabCmd ⟨some tabCmd, ["a"]⟩ ["tabopen", "a", ""] rfl rfl rfl rfl rfl
